import Mathlib

/-!
Shallow embedding of `src/pagerank/pagerank.py`.

The Python module works with `dict`s keyed by page names (strings); these are
embedded as association lists in insertion order (Python dict iteration order
is insertion order, and all dicts built by the module have pairwise distinct
keys).  Python floats are embedded as exact rationals (`ℚ`): every number the
module manipulates is produced from integer literals by field operations, so
the rational embedding tracks the real-number semantics of the algorithms.
Python runtime exceptions are embedded as `Except PyError`; the randomness
consumed by `sample_pagerank` is an injected stream of uniform draws, and the
unbounded `while True` convergence loop of `iterate_pagerank` takes an
explicit fuel argument (`none` = the loop is still running after `fuel`
rounds).
-/

abbrev Page := String

/-- A Python `dict` with `Page` keys, as an association list in insertion order. -/
abbrev PyDict (α : Type) := List (Page × α)

/-- The adjacency structure built by `crawl`: each page maps to its outbound link set. -/
abbrev Corpus := PyDict (List Page)

/-- A probability distribution / rank vector: a `dict` from page to number. -/
abbrev Distr := PyDict ℚ

/-- Runtime exceptions the Python code can raise: `corpus[page]` /
`count_page[page]` raise `KeyError`, `random.choice` on an empty sequence
raises `IndexError`, `x / 0` raises `ZeroDivisionError`, and `random.choices`
raises `ValueError` when the weights are inconsistent or their total is not
positive. -/
inductive PyError
  | keyError
  | indexError
  | zeroDiv
  | valueError
deriving DecidableEq

/-- The key list of a dict (`corpus.keys()`). -/
def keys {α : Type} (d : PyDict α) : List Page := d.map (·.1)

/-- Python dict lookup `d[p]` as an `Option` (first matching key; the dicts
built by the module have unique keys). -/
def lookupP {α : Type} : PyDict α → Page → Option α
  | [], _ => none
  | e :: es, p => if e.1 = p then some e.2 else lookupP es p

/-- Total dict lookup with default `0`, used where the Python code accesses a
key that is provably present (`pagerank[i]`, `model_i[p]`, `new_prob[p]` in
`iterate_pagerank`: all those dicts share the corpus key set). -/
def lookupD (d : Distr) (p : Page) : ℚ := (lookupP d p).getD 0

/-- Module constant `DAMPING = 0.85`. -/
def DAMPING : ℚ := 17/20

/-- Module constant `SAMPLES = 10000`. -/
def SAMPLES : ℕ := 10000

/-- Python's `s.endswith(t)`, computed on the character lists (this is
extensionally `String.endsWith`, which itself is not kernel-reducible). -/
def strEndsWith (s t : String) : Bool := t.data.reverse.isPrefixOf s.data.reverse

/-- First pass of `crawl` (lines 33-39): one raw entry per `.html` file found
in the directory, carrying the list of `href` targets the regex extracted;
`set(links) - {filename}` dedups them and strips the self-link. -/
def crawlPages (raw : List (Page × List Page)) : Corpus :=
  (raw.filter (fun fl => strEndsWith fl.1 ".html")).map
    (fun fl => (fl.1, (fl.2.eraseDups).filter (fun l => decide (l ≠ fl.1))))

/-- Second pass of `crawl` (lines 42-46): keep only links that are keys of the
corpus (`link in pages` tests key membership; the key set is not changed by
the value updates of this pass). -/
def crawl (raw : List (Page × List Page)) : Corpus :=
  (crawlPages raw).map
    (fun fl => (fl.1, fl.2.filter (fun l => decide (l ∈ keys (crawlPages raw)))))

/-- Body of `transition_model` after the `corpus[page]` lookup (lines 62-77):
if the page has links, every page of the corpus gets `(1-d)/N` plus `d/k` when
it is one of the links; a dangling page yields the uniform `1/N`. -/
def tmDist (corpus : Corpus) (links : List Page) (d : ℚ) : Distr :=
  if links ≠ [] then
    corpus.map (fun e => (e.1, (1 - d) / (corpus.length : ℚ) +
      if e.1 ∈ links then d / (links.length : ℚ) else 0))
  else
    corpus.map (fun e => (e.1, 1 / (corpus.length : ℚ)))

/-- `transition_model(corpus, page, damping_factor)` (lines 51-77).  The
`corpus[page]` access raises `KeyError` when `page` is not a key; no other
validation of any kind is performed. -/
def transition_model (corpus : Corpus) (page : Page) (d : ℚ) : Except PyError Distr :=
  match lookupP corpus page with
  | none => .error .keyError
  | some links => .ok (tmDist corpus links d)

/-- `itertools.accumulate` over the weights: running prefix sums, as used by
`random.choices`. -/
def accumFrom (acc : ℚ) : List ℚ → List ℚ
  | [] => []
  | w :: ws => (acc + w) :: accumFrom (acc + w) ws

/-- `random.choices(population, weights=weights)[0]` for one draw:
cumulative-distribution inversion.  CPython builds the prefix-sum array,
raises `ValueError` when its length differs from the population or the total
is not positive, then returns `population[bisect_right(cum, u*total, 0, n-1)]`
where `u` is the uniform draw in `[0,1)`; `bisect_right` over `cum[0:n-1]`
counts the prefix sums that are `≤ u*total`, so the index is always `< n`. -/
def pyChoices1 (population : List Page) (weights : List ℚ) (u : ℚ) : Except PyError Page :=
  if (accumFrom 0 weights).length ≠ population.length then .error .valueError
  else
    match (accumFrom 0 weights).getLast? with
    | none => .error .indexError
    | some total =>
      if total ≤ 0 then .error .valueError
      else
        .ok (population.getD
          (((accumFrom 0 weights).take (population.length - 1)).countP
            (fun c => decide (c ≤ u * total))) "")

/-- `count_page[page] += 1` (line 96): bumps the (unique) entry of `page`,
raising `KeyError` when `page` is not a key. -/
def incr : PyDict ℕ → Page → Except PyError (PyDict ℕ)
  | [], _ => .error .keyError
  | c :: cs, p =>
    if c.1 = p then .ok ((c.1, c.2 + 1) :: cs)
    else
      match incr cs p with
      | .error e => .error e
      | .ok cs1 => .ok (c :: cs1)

/-- The `for i in range(n)` loop of `sample_pagerank` (lines 94-102): count
the current page, build the transition model, draw the next page.  `k` is the
number of remaining rounds, `t` indexes the stream `u` of uniform draws. -/
def sampleLoop (corpus : Corpus) (d : ℚ) (u : ℕ → ℚ) :
    ℕ → Page → PyDict ℕ → ℕ → Except PyError (PyDict ℕ)
  | 0, _, counts, _ => .ok counts
  | k + 1, page, counts, t =>
    match incr counts page with
    | .error e => .error e
    | .ok counts1 =>
      match transition_model corpus page d with
      | .error e => .error e
      | .ok model =>
        match pyChoices1 (model.map (·.1)) (model.map (·.2)) (u t) with
        | .error e => .error e
        | .ok page1 => sampleLoop corpus d u k page1 counts1 (t + 1)

/-- Lines 90-102 of `sample_pagerank`: zero counters, start from a page chosen
uniformly at random (`random.choice` raises `IndexError` on an empty corpus;
the random index is injected as `i0`, reduced mod the page count), then run
the `n` sampling rounds. -/
def sampleCounts (corpus : Corpus) (d : ℚ) (n : ℕ) (i0 : ℕ) (u : ℕ → ℚ) :
    Except PyError (PyDict ℕ) :=
  if corpus = [] then .error .indexError
  else
    sampleLoop corpus d u n ((keys corpus).getD (i0 % (keys corpus).length) "")
      (corpus.map (fun e => (e.1, 0))) 0

/-- `sample_pagerank(corpus, damping_factor, n)` (lines 80-106): visit counts
from the sampling loop, then `count / n` for every page — with `n = 0` that
division raises `ZeroDivisionError` (there is no eager `n < 1` check). -/
def sample_pagerank (corpus : Corpus) (d : ℚ) (n : ℕ) (i0 : ℕ) (u : ℕ → ℚ) :
    Except PyError Distr :=
  match sampleCounts corpus d n i0 u with
  | .error e => .error e
  | .ok counts =>
    if n = 0 then .error .zeroDiv
    else .ok (counts.map (fun c => (c.1, (c.2 : ℚ) / (n : ℚ))))

/-- Line 119: `pagerank = {page: 1/N for page in corpus}` (on an empty corpus
the comprehension body, and hence `1/0`, is never evaluated). -/
def initRank (corpus : Corpus) : Distr :=
  corpus.map (fun e => (e.1, 1 / (corpus.length : ℚ)))

/-- Lines 121-132: one round of the power iteration,
`new_prob[p] = Σ_i pagerank[i] * transition_model(corpus, i, damping)[p]`.
Because dict keys are unique, `corpus[i]` is the link list stored in `i`'s own
entry, and all the dict accesses hit present keys. -/
def step (corpus : Corpus) (d : ℚ) (rank : Distr) : Distr :=
  corpus.map (fun p => (p.1,
    (corpus.map (fun i => lookupD rank i.1 * lookupD (tmDist corpus i.2 d) p.1)).sum))

/-- Line 134: `diff = sum(abs(new_prob[p] - pagerank[p]) for p in corpus)`. -/
def l1diff (corpus : Corpus) (newRank rank : Distr) : ℚ :=
  (corpus.map (fun p => |lookupD newRank p.1 - lookupD rank p.1|)).sum

/-- The `while True` loop of `iterate_pagerank` (lines 120-138) with explicit
fuel: compute `new_prob`, test `diff < 1e-3` and, when it holds, `break` —
*before* `pagerank = new_prob` runs — so the loop result is the rank vector
from before the final update. -/
def iterLoop (corpus : Corpus) (d : ℚ) : Distr → ℕ → Option Distr
  | _, 0 => none
  | rank, fuel + 1 =>
    let newRank := step corpus d rank
    if l1diff corpus newRank rank < 1/1000 then some rank
    else iterLoop corpus d newRank fuel

/-- Lines 140-141: divide every rank by the total (the comprehension raises
`ZeroDivisionError` when it evaluates `v / 0`, i.e. when the dict is non-empty
and the total is zero; on an empty dict the body is never evaluated). -/
def normalizeRanks (rank : Distr) : Except PyError Distr :=
  let total := (rank.map (·.2)).sum
  if rank ≠ [] ∧ total = 0 then .error .zeroDiv
  else .ok (rank.map (fun e => (e.1, e.2 / total)))

/-- `iterate_pagerank(corpus, damping_factor)` (lines 109-142).  The loop has
no iteration cap and the tolerance `1e-3` is hardcoded (the function takes no
tolerance parameter); `none` means the loop is still running after `fuel`
rounds. -/
def iterate_pagerank (corpus : Corpus) (d : ℚ) (fuel : ℕ) : Option (Except PyError Distr) :=
  (iterLoop corpus d (initRank corpus) fuel).map normalizeRanks

/-- Modelled from the spec: steps 3-4 of §4.4 order the round as "replace
`rank` with `newRank`" and then "stop when the L1 distance is below
`tolerance`", so a loop following the spec's words returns the freshly
computed `newRank` when it stops.  This variant exists only to be compared
with `iterLoop`, which embeds the code. -/
def iterLoopSpec (corpus : Corpus) (d : ℚ) : Distr → ℕ → Option Distr
  | _, 0 => none
  | rank, fuel + 1 =>
    let newRank := step corpus d rank
    if l1diff corpus newRank rank < 1/1000 then some newRank
    else iterLoopSpec corpus d newRank fuel

/-- Modelled from the spec: `IterativeEstimator.estimate` as §4.4 words it,
returning the last computed `newRank` (normalized) instead of the previous
iterate. -/
def iterate_pagerank_spec (corpus : Corpus) (d : ℚ) (fuel : ℕ) :
    Option (Except PyError Distr) :=
  (iterLoopSpec corpus d (initRank corpus) fuel).map normalizeRanks

/-- The §3 graph invariants: at least one page, unique keys, and every
outbound set duplicate-free and contained in the key set. -/
abbrev ValidGraph (corpus : Corpus) : Prop :=
  corpus ≠ [] ∧ (keys corpus).Nodup ∧
    ∀ e ∈ corpus, e.2.Nodup ∧ ∀ l ∈ e.2, l ∈ keys corpus

/-- The symmetric two-page cycle of Scenario A. -/
def twoCycle : Corpus := [("A", ["B"]), ("B", ["A"])]

/-- The two-page graph with a dangling page of Scenario B. -/
def dangling2 : Corpus := [("A", ["B"]), ("B", [])]

/-- The single dangling page graph. -/
def onePage : Corpus := [("A", [])]

/-- A concrete raw link structure for exercising `crawl`: `a.html` carries a
self-link, a link to `b.html` and a link leaving the corpus. -/
def rawLinks : List (Page × List Page) :=
  [("a.html", ["b.html", "a.html", "c.html"]), ("b.html", ["a.html"])]

/-! ### Dict lemmas -/

theorem lookupP_isSome {α : Type} (d : PyDict α) (p : Page) (hp : p ∈ keys d) :
    ∃ b, lookupP d p = some b := by
  induction d with
  | nil => simp [keys] at hp
  | cons e es ih =>
    by_cases h : e.1 = p
    · exact ⟨e.2, by simp [lookupP, h]⟩
    · have hp2 : p ∈ keys es := by
        rcases (by simpa [keys] using hp) with h1 | h1
        · exact absurd h1.symm h
        · simpa [keys] using h1
      rcases ih hp2 with ⟨b, hb⟩
      exact ⟨b, by simp [lookupP, h, hb]⟩

theorem lookupP_mem {α : Type} (d : PyDict α) (p : Page) (b : α)
    (h : lookupP d p = some b) : (p, b) ∈ d := by
  induction d with
  | nil => simp [lookupP] at h
  | cons e es ih =>
    by_cases he : e.1 = p
    · subst he
      simp only [lookupP, if_pos] at h
      injection h with h2
      subst h2
      exact List.mem_cons_self _ _
    · simp only [lookupP, he, if_neg, not_false_iff] at h
      exact List.mem_cons_of_mem _ (ih h)

theorem lookupP_map_key {α β : Type} (d : PyDict α) (g : Page → β) (p : Page)
    (hp : p ∈ keys d) :
    lookupP (d.map (fun e => (e.1, g e.1))) p = some (g p) := by
  induction d with
  | nil => simp [keys] at hp
  | cons e es ih =>
    by_cases h : e.1 = p
    · simp [lookupP, h]
    · have hp2 : p ∈ keys es := by
        rcases (by simpa [keys] using hp) with h1 | h1
        · exact absurd h1.symm h
        · simpa [keys] using h1
      simp [lookupP, h, ih hp2]

theorem keys_map_fst {α β : Type} (d : PyDict α) (g : Page × α → β) :
    keys (d.map (fun e => (e.1, g e))) = keys d := by
  simp [keys, List.map_map]

/-! ### Sum lemmas -/

theorem sum_map_add (l : List (Page × List Page)) (f g : Page × List Page → ℚ) :
    (l.map (fun e => f e + g e)).sum = (l.map f).sum + (l.map g).sum := by
  induction l with
  | nil => simp
  | cons e es ih => simp [ih]; ring

theorem sum_map_const (l : List (Page × List Page)) (c : ℚ) :
    (l.map (fun _ => c)).sum = (l.length : ℚ) * c := by
  induction l with
  | nil => simp
  | cons e es ih => simp [ih]; ring

theorem sum_map_ite (l : List (Page × List Page)) (links : List Page) (c : ℚ) :
    (l.map (fun e => if e.1 ∈ links then c else 0)).sum =
      ((keys l).countP (fun q => decide (q ∈ links)) : ℚ) * c := by
  induction l with
  | nil => simp [keys]
  | cons e es ih =>
    simp only [keys, List.map_cons, List.sum_cons, List.countP_cons] at ih ⊢
    by_cases h : e.1 ∈ links
    · simp [h, ih]
      ring
    · simp [h, ih]

theorem countP_mem_eq_length (ks : List Page) (links : List Page)
    (hknd : ks.Nodup) (hlnd : links.Nodup) (hsub : ∀ l ∈ links, l ∈ ks) :
    ks.countP (fun q => decide (q ∈ links)) = links.length := by
  rw [List.countP_eq_length_filter]
  have hperm : List.Perm (ks.filter (fun q => decide (q ∈ links))) links := by
    rw [List.perm_ext_iff_of_nodup (hknd.filter _) hlnd]
    intro a
    simp only [List.mem_filter, decide_eq_true_eq]
    exact ⟨fun h => h.2, fun h => ⟨hsub a h, h⟩⟩
  exact hperm.length_eq

theorem sum_map_div (l : List (Page × ℕ)) (c : ℚ) :
    ((l.map (fun e => ((e.2 : ℚ) / c))).sum) = ((l.map (fun e => (e.2 : ℚ))).sum) / c := by
  induction l with
  | nil => simp
  | cons e es ih => simp [ih]; ring

/-! ### Transition model structure -/

theorem tmDist_keys (corpus : Corpus) (links : List Page) (d : ℚ) :
    keys (tmDist corpus links d) = keys corpus := by
  unfold tmDist
  by_cases h : links = [] <;> simp [h, keys, List.map_map]

theorem tmDist_sum (corpus : Corpus) (links : List Page) (d : ℚ)
    (hne : corpus ≠ []) (hknd : (keys corpus).Nodup) (hlnd : links.Nodup)
    (hsub : ∀ l ∈ links, l ∈ keys corpus) :
    ((tmDist corpus links d).map (·.2)).sum = 1 := by
  have hN : (corpus.length : ℚ) ≠ 0 := by
    simp only [ne_eq, Nat.cast_eq_zero, List.length_eq_zero]
    exact hne
  by_cases h : links = []
  · subst h
    unfold tmDist
    rw [if_neg (by simp), List.map_map]
    have hcomp : ((fun x : Page × ℚ => x.2) ∘
        (fun e : Page × List Page => (e.1, 1 / (corpus.length : ℚ)))) =
        fun _ : Page × List Page => 1 / (corpus.length : ℚ) := rfl
    rw [hcomp, sum_map_const]
    field_simp
  · have hk : (links.length : ℚ) ≠ 0 := by
      simp only [ne_eq, Nat.cast_eq_zero, List.length_eq_zero]
      exact h
    unfold tmDist
    rw [if_pos h, List.map_map]
    have hcomp : ((fun x : Page × ℚ => x.2) ∘
        (fun e : Page × List Page => (e.1, (1 - d) / (corpus.length : ℚ) +
          if e.1 ∈ links then d / (links.length : ℚ) else 0))) =
        fun e : Page × List Page => (1 - d) / (corpus.length : ℚ) +
          (if e.1 ∈ links then d / (links.length : ℚ) else 0) := rfl
    rw [hcomp, sum_map_add corpus (fun _ => (1 - d) / (corpus.length : ℚ))
      (fun e => if e.1 ∈ links then d / (links.length : ℚ) else 0)]
    rw [sum_map_const, sum_map_ite, countP_mem_eq_length (keys corpus) links hknd hlnd hsub]
    field_simp

/-- C4: on a page whose link set `links` is non-empty, `transition_model`
assigns every page `p` of the corpus the probability `(1-d)/N`, plus `d/k`
exactly when `p` is one of the links (`N` pages, `k` links). -/
theorem transition_model_linked_value (corpus : Corpus) (page p : Page)
    (links : List Page) (d : ℚ) (hlk : lookupP corpus page = some links)
    (hne : links ≠ []) (hp : p ∈ keys corpus) :
    ∃ m, transition_model corpus page d = .ok m ∧
      lookupP m p = some ((1 - d) / (corpus.length : ℚ) +
        if p ∈ links then d / (links.length : ℚ) else 0) := by
  refine ⟨tmDist corpus links d, by simp [transition_model, hlk], ?_⟩
  unfold tmDist
  rw [if_pos hne]
  exact lookupP_map_key corpus
    (fun q => (1 - d) / (corpus.length : ℚ) +
      if q ∈ links then d / (links.length : ℚ) else 0) p hp

theorem transition_model_linked_value_witness :
    ∃ m, transition_model twoCycle "A" DAMPING = .ok m ∧
      lookupP m "B" = some ((1 - DAMPING) / (twoCycle.length : ℚ) +
        if "B" ∈ ["B"] then DAMPING / ((["B"] : List Page).length : ℚ) else 0) :=
  transition_model_linked_value twoCycle "A" "B" ["B"] DAMPING
    (by decide) (by decide) (by decide)

/-- C5: on a dangling page (empty link set) `transition_model` returns the
exactly uniform distribution `1/N`, for every damping factor. -/
theorem transition_model_dangling_uniform (corpus : Corpus) (page p : Page)
    (d : ℚ) (hlk : lookupP corpus page = some []) (hp : p ∈ keys corpus) :
    ∃ m, transition_model corpus page d = .ok m ∧
      lookupP m p = some (1 / (corpus.length : ℚ)) := by
  refine ⟨tmDist corpus [] d, by simp [transition_model, hlk], ?_⟩
  unfold tmDist
  rw [if_neg (by simp)]
  exact lookupP_map_key corpus (fun _ => 1 / (corpus.length : ℚ)) p hp

theorem transition_model_dangling_uniform_witness :
    ∃ m, transition_model dangling2 "B" DAMPING = .ok m ∧
      lookupP m "A" = some (1 / (dangling2.length : ℚ)) :=
  transition_model_dangling_uniform dangling2 "B" "A" DAMPING (by decide) (by decide)

/-- C6: for a valid graph, every member page and every damping factor in
`[0,1]`, the distribution returned by `transition_model` sums to exactly `1`
(hence within the spec's `1e-9`), dangling pages included. -/
theorem transition_model_sum_one (corpus : Corpus) (page : Page) (d : ℚ)
    (hg : ValidGraph corpus) (hp : page ∈ keys corpus)
    (hd0 : 0 ≤ d) (hd1 : d ≤ 1) :
    ∃ m, transition_model corpus page d = .ok m ∧ (m.map (·.2)).sum = 1 := by
  obtain ⟨links, hlk⟩ := lookupP_isSome corpus page hp
  obtain ⟨hne, hknd, hinv⟩ := hg
  obtain ⟨hlnd, hsub⟩ := hinv _ (lookupP_mem corpus page links hlk)
  exact ⟨tmDist corpus links d, by simp [transition_model, hlk],
    tmDist_sum corpus links d hne hknd hlnd hsub⟩

theorem transition_model_sum_one_witness :
    ∃ m, transition_model dangling2 "B" DAMPING = .ok m ∧ (m.map (·.2)).sum = 1 :=
  transition_model_sum_one dangling2 "B" DAMPING (by decide) (by decide)
    (by norm_num [DAMPING]) (by norm_num [DAMPING])

/-! ### Graph construction -/

/-- C9: every link exposed by the constructed graph points at a key of the
graph and is never the page itself. -/
theorem crawl_links_inside_and_no_self (raw : List (Page × List Page))
    (p : Page × List Page) (hp : p ∈ crawl raw) (l : Page) (hl : l ∈ p.2) :
    l ∈ keys (crawl raw) ∧ l ≠ p.1 := by
  have hkeys : keys (crawl raw) = keys (crawlPages raw) :=
    keys_map_fst (crawlPages raw)
      (fun fl => fl.2.filter (fun l => decide (l ∈ keys (crawlPages raw))))
  obtain ⟨fl, hfl, rfl⟩ := List.mem_map.mp hp
  simp only at hl
  have h2 := List.mem_filter.mp hl
  constructor
  · rw [hkeys]
    exact of_decide_eq_true h2.2
  · obtain ⟨g, hg, rfl⟩ := List.mem_map.mp hfl
    simp only at h2
    have h3 := List.mem_filter.mp h2.1
    exact of_decide_eq_true h3.2

theorem crawl_links_inside_and_no_self_witness :
    "b.html" ∈ keys (crawl rawLinks) ∧ "b.html" ≠ "a.html" :=
  crawl_links_inside_and_no_self rawLinks ("a.html", ["b.html"])
    (by decide) "b.html" (by decide)

/-! ### Missing parameter validation -/

/-- C2 counterexample: with the out-of-range damping factor `3/2`,
`transition_model` does not fail with any error; it happily returns a
"distribution" with a negative entry. -/
theorem transition_model_accepts_bad_damping :
    transition_model twoCycle "A" (3/2) = .ok [("A", -(1/4)), ("B", 5/4)] := by
  simp [transition_model, twoCycle, lookupP, tmDist]
  norm_num

/-- C2 as the code actually behaves: no parameter is validated eagerly.
`transition_model` accepts every damping factor (the only failure it can
produce is the `KeyError` of the `corpus[page]` lookup), and
`sample_pagerank` with `n = 0 < 1` runs its loop zero times and fails only at
the final `count / n` division with `ZeroDivisionError` — not with any eager
`InvalidParameter` check (`iterate_pagerank` has no tolerance parameter at
all; its threshold is the hardcoded `1e-3`). -/
theorem no_eager_parameter_validation (corpus : Corpus) (page : Page)
    (links : List Page) (d : ℚ) (i0 : ℕ) (u : ℕ → ℚ)
    (hlk : lookupP corpus page = some links) (hne : corpus ≠ []) :
    transition_model corpus page d = .ok (tmDist corpus links d) ∧
    sample_pagerank corpus d 0 i0 u = .error .zeroDiv := by
  constructor
  · simp [transition_model, hlk]
  · simp [sample_pagerank, sampleCounts, hne, sampleLoop]

theorem no_eager_parameter_validation_witness :
    transition_model twoCycle "A" (3/2) = .ok (tmDist twoCycle ["B"] (3/2)) ∧
    sample_pagerank twoCycle (3/2) 0 0 (fun _ => 0) = .error .zeroDiv :=
  no_eager_parameter_validation twoCycle "A" ["B"] (3/2) 0 (fun _ => 0)
    (by decide) (by decide)

/-! ### Empty graph -/

/-- C3 counterexample: on the empty graph nothing raises an explicit
`EmptyCorpus`/`InvalidGraph` error.  `iterate_pagerank` runs a full round on
the empty rank vector and returns an empty result with no failure at all,
while `sample_pagerank` dies with the unguarded `IndexError` that
`random.choice` raises on an empty sequence. -/
theorem empty_corpus_not_guarded :
    iterate_pagerank [] DAMPING 1 = some (.ok []) ∧
    sample_pagerank [] DAMPING 10000 0 (fun _ => 0) = .error .indexError := by
  constructor
  · simp [iterate_pagerank, iterLoop, step, l1diff, initRank, normalizeRanks]
  · simp [sample_pagerank, sampleCounts]

/-- C3 as the code actually behaves: for every damping factor, fuel bound,
sample count and random source, the empty graph makes `iterate_pagerank`
return an empty dict without error after its first round, and makes
`sample_pagerank` raise the unguarded `IndexError` — neither estimator
reports an explicit empty-corpus error. -/
theorem empty_corpus_behaviour (d : ℚ) (fuel n i0 : ℕ) (u : ℕ → ℚ)
    (hf : 1 ≤ fuel) :
    iterate_pagerank [] d fuel = some (.ok []) ∧
    sample_pagerank [] d n i0 u = .error .indexError := by
  obtain ⟨f, rfl⟩ : ∃ f, fuel = f + 1 := ⟨fuel - 1, by omega⟩
  constructor
  · simp [iterate_pagerank, iterLoop, step, l1diff, initRank, normalizeRanks]
  · simp [sample_pagerank, sampleCounts]

theorem empty_corpus_behaviour_witness :
    iterate_pagerank [] (1/2) 3 = some (.ok []) ∧
    sample_pagerank [] (1/2) 7 5 (fun _ => 0) = .error .indexError :=
  empty_corpus_behaviour (1/2) 3 7 5 (fun _ => 0) (by decide)

/-! ### What the convergence loop returns -/

theorem iterLoop_some (corpus : Corpus) (d : ℚ) :
    ∀ (fuel : ℕ) (r0 r : Distr), iterLoop corpus d r0 fuel = some r →
      ∃ k, k < fuel ∧ r = (step corpus d)^[k] r0 ∧
        l1diff corpus ((step corpus d)^[k + 1] r0) ((step corpus d)^[k] r0) < 1/1000 := by
  intro fuel
  induction fuel with
  | zero =>
    intro r0 r h
    simp [iterLoop] at h
  | succ f ih =>
    intro r0 r h
    by_cases hc : l1diff corpus (step corpus d r0) r0 < 1/1000
    · refine ⟨0, Nat.succ_pos f, ?_, ?_⟩
      · simp only [iterLoop, hc, if_pos] at h
        simpa using (Option.some_injective _ h).symm
      · simpa using hc
    · simp only [iterLoop, hc, if_neg, not_false_iff] at h
      obtain ⟨k, hk, hr, hl⟩ := ih (step corpus d r0) r h
      refine ⟨k + 1, by omega, ?_, ?_⟩
      · rw [hr, Function.iterate_succ_apply]
      · rw [Function.iterate_succ_apply, Function.iterate_succ_apply]
        exact hl

/-- C1 as the code actually behaves: when the loop of `iterate_pagerank`
stops, the vector that is normalized and returned is the iterate from
*before* the final update — the `break` at line 136 runs before
`pagerank = new_prob` at line 138 — i.e. the `k`-th power-iterate, where the
stopping test compared the freshly computed `(k+1)`-st iterate against it. -/
theorem iterate_pagerank_returns_previous (corpus : Corpus) (d : ℚ) (fuel : ℕ)
    (res : Except PyError Distr)
    (h : iterate_pagerank corpus d fuel = some res) :
    ∃ k, k < fuel ∧
      res = normalizeRanks ((step corpus d)^[k] (initRank corpus)) ∧
      l1diff corpus ((step corpus d)^[k + 1] (initRank corpus))
        ((step corpus d)^[k] (initRank corpus)) < 1/1000 := by
  unfold iterate_pagerank at h
  rw [Option.map_eq_some'] at h
  obtain ⟨r, hr, rfl⟩ := h
  obtain ⟨k, hk, rfl, hl⟩ := iterLoop_some corpus d fuel (initRank corpus) r hr
  exact ⟨k, hk, rfl, hl⟩

theorem onePageIterEval : iterate_pagerank onePage DAMPING 1 = some (.ok [("A", 1)]) := by
  have h0 : initRank onePage = [("A", 1)] := by
    norm_num [initRank, onePage]
  have h1 : step onePage DAMPING [("A", 1)] = [("A", 1)] := by
    simp [step, tmDist, onePage, lookupD, lookupP]
  have h2 : l1diff onePage [("A", 1)] [("A", 1)] = 0 := by
    simp [l1diff, onePage, lookupD, lookupP]
  unfold iterate_pagerank
  rw [h0, iterLoop, h1, h2]
  norm_num [normalizeRanks]

theorem iterate_pagerank_returns_previous_witness :
    ∃ k, k < 1 ∧
      (Except.ok [("A", (1 : ℚ))] : Except PyError Distr) =
        normalizeRanks ((step onePage DAMPING)^[k] (initRank onePage)) ∧
      l1diff onePage ((step onePage DAMPING)^[k + 1] (initRank onePage))
        ((step onePage DAMPING)^[k] (initRank onePage)) < 1/1000 :=
  iterate_pagerank_returns_previous onePage DAMPING 1 (Except.ok [("A", 1)])
    onePageIterEval

theorem dStep1 : step dangling2 (1/10) [("A", 1/2), ("B", 1/2)] =
    [("A", 19/40), ("B", 21/40)] := by
  simp [step, tmDist, dangling2, lookupD, lookupP]
  norm_num

theorem dStep2 : step dangling2 (1/10) [("A", 19/40), ("B", 21/40)] =
    [("A", 381/800), ("B", 419/800)] := by
  simp [step, tmDist, dangling2, lookupD, lookupP]
  norm_num

theorem dStep3 : step dangling2 (1/10) [("A", 381/800), ("B", 419/800)] =
    [("A", 7619/16000), ("B", 8381/16000)] := by
  simp [step, tmDist, dangling2, lookupD, lookupP]
  norm_num

theorem dDiff1 : l1diff dangling2 [("A", 19/40), ("B", 21/40)] [("A", 1/2), ("B", 1/2)] =
    1/20 := by
  simp [l1diff, dangling2, lookupD, lookupP]
  norm_num [abs_of_nonneg, abs_of_nonpos]

theorem dDiff2 : l1diff dangling2 [("A", 381/800), ("B", 419/800)]
    [("A", 19/40), ("B", 21/40)] = 1/400 := by
  simp [l1diff, dangling2, lookupD, lookupP]
  norm_num [abs_of_nonneg, abs_of_nonpos]

theorem dDiff3 : l1diff dangling2 [("A", 7619/16000), ("B", 8381/16000)]
    [("A", 381/800), ("B", 419/800)] = 1/8000 := by
  simp [l1diff, dangling2, lookupD, lookupP]
  norm_num [abs_of_nonneg, abs_of_nonpos]

/-- C1 counterexample: on the graph `{A: {B}, B: {}}` with damping `1/10`,
the loop stops comparing the third iterate against the second, and the code
returns the *second* iterate `(381/800, 419/800)` — not the last computed
`newRank` `(7619/16000, 8381/16000)` that the spec's step ordering (replace,
then test) would return. -/
theorem iterate_pagerank_not_last_newRank :
    iterate_pagerank dangling2 (1/10) 5 = some (.ok [("A", 381/800), ("B", 419/800)]) ∧
    iterate_pagerank_spec dangling2 (1/10) 5 =
      some (.ok [("A", 7619/16000), ("B", 8381/16000)]) ∧
    iterate_pagerank dangling2 (1/10) 5 ≠ iterate_pagerank_spec dangling2 (1/10) 5 := by
  have h0 : initRank dangling2 = [("A", 1/2), ("B", 1/2)] := by
    norm_num [initRank, dangling2]
  have hA : iterate_pagerank dangling2 (1/10) 5 =
      some (.ok [("A", 381/800), ("B", 419/800)]) := by
    unfold iterate_pagerank
    rw [h0, iterLoop, dStep1, dDiff1]
    norm_num
    rw [iterLoop, dStep2, dDiff2]
    norm_num
    rw [iterLoop, dStep3, dDiff3]
    norm_num [normalizeRanks]
  have hB : iterate_pagerank_spec dangling2 (1/10) 5 =
      some (.ok [("A", 7619/16000), ("B", 8381/16000)]) := by
    unfold iterate_pagerank_spec
    rw [h0, iterLoopSpec, dStep1, dDiff1]
    norm_num
    rw [iterLoopSpec, dStep2, dDiff2]
    norm_num
    rw [iterLoopSpec, dStep3, dDiff3]
    norm_num [normalizeRanks]
  refine ⟨hA, hB, ?_⟩
  rw [hA, hB]
  intro h
  simp only [Option.some_inj] at h
  injection h with h2
  simp at h2
  norm_num at h2

/-! ### Scenario A and the single-page graph -/

/-- C8: on the symmetric two-page cycle with damping `0.85` the iteration
stops on its first round (the uniform start is already the fixed point) and
returns exactly `1/2` for both pages — equal to `0.5`, hence within the
claimed `±1e-3`. -/
theorem two_cycle_converges_to_half :
    iterate_pagerank twoCycle DAMPING 1 = some (.ok [("A", 1/2), ("B", 1/2)]) := by
  have h0 : initRank twoCycle = [("A", 1/2), ("B", 1/2)] := by
    norm_num [initRank, twoCycle]
  have h1 : step twoCycle DAMPING [("A", 1/2), ("B", 1/2)] = [("A", 1/2), ("B", 1/2)] := by
    simp [step, tmDist, twoCycle, lookupD, lookupP, DAMPING]
    norm_num
  have h2 : l1diff twoCycle [("A", 1/2), ("B", 1/2)] [("A", 1/2), ("B", 1/2)] = 0 := by
    simp [l1diff, twoCycle, lookupD, lookupP]
  unfold iterate_pagerank
  rw [h0, iterLoop, h1, h2]
  norm_num [normalizeRanks]

theorem onePageSampleLoop (u : ℕ → ℚ) :
    ∀ (k c t : ℕ), sampleLoop onePage DAMPING u k "A" [("A", c)] t = .ok [("A", c + k)] := by
  intro k
  induction k with
  | zero =>
    intro c t
    simp [sampleLoop]
  | succ j ih =>
    intro c t
    have hi : incr [("A", c)] "A" = .ok [("A", c + 1)] := by simp [incr]
    have ht : transition_model onePage "A" DAMPING = .ok [("A", 1)] := by
      simp [transition_model, onePage, lookupP, tmDist]
    have hp : pyChoices1 ["A"] [(1 : ℚ)] (u t) = .ok "A" := by
      simp [pyChoices1, accumFrom]
    simp only [sampleLoop, hi, ht, List.map_cons, List.map_nil, hp]
    have harith : c + (j + 1) = (c + 1) + j := by omega
    rw [harith]
    exact ih (c + 1) (t + 1)

/-- C10: on the single-page graph `{A: {}}` the sampler can only ever visit
`A`, so for every sample count `n ≥ 1` and every random source it returns
exactly `{A: 1}`, and the iteration stops after one round returning exactly
`{A: 1}`. -/
theorem single_page_graph (n i0 : ℕ) (u : ℕ → ℚ) (hn : 1 ≤ n) :
    sample_pagerank onePage DAMPING n i0 u = .ok [("A", (1 : ℚ))] ∧
    iterate_pagerank onePage DAMPING 1 = some (.ok [("A", 1)]) := by
  refine ⟨?_, onePageIterEval⟩
  have hstart : (keys onePage).getD (i0 % (keys onePage).length) "" = "A" := by
    simp [keys, onePage, Nat.mod_one]
  have hcounts : sampleCounts onePage DAMPING n i0 u = .ok [("A", n)] := by
    unfold sampleCounts
    rw [if_neg (by simp [onePage])]
    rw [hstart]
    have hz : onePage.map (fun e => (e.1, 0)) = [("A", 0)] := rfl
    rw [hz, onePageSampleLoop u n 0 0]
    norm_num
  unfold sample_pagerank
  rw [hcounts]
  have hnz : (n : ℚ) ≠ 0 := Nat.cast_ne_zero.mpr (by omega)
  simp [show n ≠ 0 by omega, div_self hnz]

theorem single_page_graph_witness :
    sample_pagerank onePage DAMPING 1 0 (fun _ => 0) = .ok [("A", (1 : ℚ))] ∧
    iterate_pagerank onePage DAMPING 1 = some (.ok [("A", 1)]) :=
  single_page_graph 1 0 (fun _ => 0) (by decide)

/-! ### Sampling invariants -/

theorem accumFrom_length (ws : List ℚ) : ∀ acc, (accumFrom acc ws).length = ws.length := by
  induction ws with
  | nil =>
    intro acc
    simp [accumFrom]
  | cons w ws ih =>
    intro acc
    simp [accumFrom, ih]

theorem getLast?_cons_ne {α : Type} (x : α) (l : List α) (h : l ≠ []) :
    (x :: l).getLast? = l.getLast? := by
  cases l with
  | nil => exact absurd rfl h
  | cons y ys => exact List.getLast?_cons_cons

theorem accumFrom_getLast (ws : List ℚ) : ∀ acc, ws ≠ [] →
    (accumFrom acc ws).getLast? = some (acc + ws.sum) := by
  induction ws with
  | nil =>
    intro acc h
    exact absurd rfl h
  | cons w ws ih =>
    intro acc h
    cases ws with
    | nil => simp [accumFrom]
    | cons w2 ws2 =>
      have hne2 : accumFrom (acc + w) (w2 :: ws2) ≠ [] := by simp [accumFrom]
      rw [show accumFrom acc (w :: w2 :: ws2) =
          (acc + w) :: accumFrom (acc + w) (w2 :: ws2) from rfl]
      rw [getLast?_cons_ne _ _ hne2]
      rw [ih (acc + w) (by simp)]
      simp only [List.sum_cons, Option.some_inj]
      ring

theorem getD_mem {α : Type} : ∀ (l : List α) (i : ℕ) (dflt : α),
    i < l.length → l.getD i dflt ∈ l := by
  intro l
  induction l with
  | nil =>
    intro i dflt h
    simp at h
  | cons x xs ih =>
    intro i dflt h
    cases i with
    | zero => simp
    | succ j =>
      simp only [List.getD_cons_succ]
      exact List.mem_cons_of_mem _ (ih j dflt (by simpa using h))

theorem pyChoices1_ok (population : List Page) (weights : List ℚ) (u : ℚ)
    (hne : population ≠ []) (hlen : weights.length = population.length)
    (hpos : 0 < weights.sum) :
    ∃ q, pyChoices1 population weights u = .ok q ∧ q ∈ population := by
  have hplen : 0 < population.length := List.length_pos.mpr hne
  have hwne : weights ≠ [] := by
    intro h
    rw [h] at hlen
    simp at hlen
    omega
  have hclen : (accumFrom 0 weights).length = population.length := by
    rw [accumFrom_length]
    exact hlen
  have hlast : (accumFrom 0 weights).getLast? = some (0 + weights.sum) :=
    accumFrom_getLast weights 0 hwne
  have hidx : (((accumFrom 0 weights).take (population.length - 1)).countP
      (fun c => decide (c ≤ u * (0 + weights.sum)))) < population.length := by
    have h1 := List.countP_le_length
      (p := fun c => decide (c ≤ u * (0 + weights.sum)))
      (l := (accumFrom 0 weights).take (population.length - 1))
    have h2 : ((accumFrom 0 weights).take (population.length - 1)).length =
        min (population.length - 1) (accumFrom 0 weights).length :=
      List.length_take _ _
    omega
  refine ⟨population.getD
      (((accumFrom 0 weights).take (population.length - 1)).countP
        (fun c => decide (c ≤ u * (0 + weights.sum)))) "",
    ?_, getD_mem _ _ "" hidx⟩
  unfold pyChoices1
  rw [if_neg (by rw [hclen]; exact fun hcon => hcon rfl)]
  simp only [hlast]
  rw [if_neg (by intro hle; linarith)]

theorem incr_spec (counts : PyDict ℕ) (p : Page) (hp : p ∈ keys counts) :
    ∃ cs, incr counts p = .ok cs ∧ keys cs = keys counts ∧
      (cs.map (·.2)).sum = (counts.map (·.2)).sum + 1 := by
  induction counts with
  | nil => simp [keys] at hp
  | cons c cs ih =>
    by_cases h : c.1 = p
    · refine ⟨(c.1, c.2 + 1) :: cs, by simp [incr, h], by simp [keys], by simp; omega⟩
    · have hp2 : p ∈ keys cs := by
        rcases (by simpa [keys] using hp) with h1 | h1
        · exact absurd h1.symm h
        · simpa [keys] using h1
      obtain ⟨cs1, h1, h2, h3⟩ := ih hp2
      refine ⟨c :: cs1, ?_, ?_, ?_⟩
      · simp [incr, h, h1]
      · simp [keys] at h2 ⊢
        exact h2
      · simp [h3]
        omega

theorem sum_map_zero (l : Corpus) :
    ((l.map (fun e => (e.1, (0 : ℕ)))).map (·.2)).sum = 0 := by
  induction l with
  | nil => simp
  | cons e es ih =>
    simp only [List.map_cons, List.sum_cons, ih]

theorem sampleLoop_ok (corpus : Corpus) (d : ℚ) (u : ℕ → ℚ) (hg : ValidGraph corpus) :
    ∀ (k : ℕ) (page : Page) (counts : PyDict ℕ) (t : ℕ),
      page ∈ keys corpus → keys counts = keys corpus →
      ∃ cs, sampleLoop corpus d u k page counts t = .ok cs ∧ keys cs = keys corpus ∧
        (cs.map (·.2)).sum = (counts.map (·.2)).sum + k := by
  obtain ⟨hne, hknd, hinv⟩ := hg
  intro k
  induction k with
  | zero =>
    intro page counts t hp hk
    exact ⟨counts, by simp [sampleLoop], hk, by simp⟩
  | succ j ih =>
    intro page counts t hp hk
    obtain ⟨cs1, h1, hk1, hs1⟩ := incr_spec counts page (by rw [hk]; exact hp)
    obtain ⟨links, hlk⟩ := lookupP_isSome corpus page hp
    obtain ⟨hlnd, hsub⟩ := hinv _ (lookupP_mem corpus page links hlk)
    have hmodel : transition_model corpus page d = .ok (tmDist corpus links d) := by
      simp [transition_model, hlk]
    have hmk : keys (tmDist corpus links d) = keys corpus := tmDist_keys corpus links d
    have hpop : (tmDist corpus links d).map (·.1) ≠ [] := by
      intro hempty
      have hkc : keys corpus = [] := by
        rw [← hmk]
        exact hempty
      exact hne (by simpa [keys] using hkc)
    have hwl : ((tmDist corpus links d).map (·.2)).length =
        ((tmDist corpus links d).map (·.1)).length := by simp
    have hws : 0 < ((tmDist corpus links d).map (·.2)).sum := by
      rw [tmDist_sum corpus links d hne hknd hlnd hsub]
      norm_num
    obtain ⟨q, hq, hqm⟩ :=
      pyChoices1_ok ((tmDist corpus links d).map (·.1))
        ((tmDist corpus links d).map (·.2)) (u t) hpop hwl hws
    have hq2 : q ∈ keys corpus := by
      rw [← hmk]
      exact hqm
    obtain ⟨cs2, h2, hk2, hs2⟩ := ih q cs1 (t + 1) hq2 (hk1.trans hk)
    refine ⟨cs2, ?_, hk2, ?_⟩
    · simp only [sampleLoop, h1, hmodel, hq, h2]
    · rw [hs2, hs1]
      omega

/-- C7: for every valid graph, every damping factor, every random source and
every `n ≥ 1`, the sampling loop produces visit counters summing to exactly
`n`, and `sample_pagerank` therefore returns ranks (each count divided by
`n`) summing to exactly `1`, with no renormalization step. -/
theorem sample_pagerank_sums_to_one (corpus : Corpus) (d : ℚ) (n i0 : ℕ) (u : ℕ → ℚ)
    (hg : ValidGraph corpus) (hn : 1 ≤ n) :
    ∃ cs r, sampleCounts corpus d n i0 u = .ok cs ∧ (cs.map (·.2)).sum = n ∧
      sample_pagerank corpus d n i0 u = .ok r ∧ (r.map (·.2)).sum = 1 := by
  have hne := hg.1
  have hstart : (keys corpus).getD (i0 % (keys corpus).length) "" ∈ keys corpus := by
    apply getD_mem
    apply Nat.mod_lt
    have hkne : keys corpus ≠ [] := by
      simpa [keys, List.map_eq_nil_iff] using hne
    exact List.length_pos.mpr hkne
  have hzero_keys : keys (corpus.map (fun e => (e.1, (0 : ℕ)))) = keys corpus :=
    keys_map_fst corpus (fun _ => 0)
  obtain ⟨cs, hcs, hkcs, hsum⟩ :=
    sampleLoop_ok corpus d u hg n _ _ 0 hstart hzero_keys
  have hsn : (cs.map (·.2)).sum = n := by
    rw [hsum, sum_map_zero]
    omega
  have hcounts : sampleCounts corpus d n i0 u = .ok cs := by
    unfold sampleCounts
    rw [if_neg hne]
    exact hcs
  have hn0 : n ≠ 0 := by omega
  have hnz : (n : ℚ) ≠ 0 := Nat.cast_ne_zero.mpr hn0
  refine ⟨cs, cs.map (fun c => (c.1, (c.2 : ℚ) / (n : ℚ))), hcounts, hsn, ?_, ?_⟩
  · unfold sample_pagerank
    rw [hcounts]
    simp [hn0]
  · rw [List.map_map]
    have hcomp : ((fun x : Page × ℚ => x.2) ∘
        (fun c : Page × ℕ => (c.1, (c.2 : ℚ) / (n : ℚ)))) =
        fun c : Page × ℕ => (c.2 : ℚ) / (n : ℚ) := rfl
    rw [hcomp, sum_map_div]
    have hcast : (cs.map (fun e : Page × ℕ => ((e.2 : ℚ)))).sum =
        (((cs.map (·.2)).sum : ℕ) : ℚ) := by
      rw [Nat.cast_list_sum, List.map_map]
      rfl
    rw [hcast, hsn, div_self hnz]

theorem sample_pagerank_sums_to_one_witness :
    ∃ cs r, sampleCounts twoCycle DAMPING 1 0 (fun _ => 0) = .ok cs ∧
      (cs.map (·.2)).sum = 1 ∧
      sample_pagerank twoCycle DAMPING 1 0 (fun _ => 0) = .ok r ∧
      (r.map (·.2)).sum = 1 :=
  sample_pagerank_sums_to_one twoCycle DAMPING 1 0 (fun _ => 0) (by decide) (by decide)
